import Mathlib

/-!
Verification of the opencode-web event distribution and reconciliation layer.

The repository documents its event handling in src/EVENTS.md (per-event
"Web Handling" descriptions and the quoted server-side SSE endpoint) and
ships the release automation in src/script/publish.ts.  The client-side
reconciler implementation itself (React state handlers) is not part of the
shipped sources, so its algorithmic core is modelled from the specification;
the filtering behaviour the repository does document in src/EVENTS.md is
modelled separately and checked against the claims that cite it.
-/

namespace OpencodeWeb

/-- A session record.  Only the identifier participates in the reconciliation
logic; every remaining field of the source `Session` object is abstracted into
an opaque `payload` string. -/
structure SessionInfo where
  id : String
  payload : String
deriving DecidableEq

/-- The envelope (`info`) of a message: `message.updated` carries
`{ info : { id, sessionID, ... } }`; role and the remaining fields are
abstracted into `payload`. -/
structure MsgInfo where
  id : String
  sessionID : String
  payload : String
deriving DecidableEq

/-- A message part as carried by `message.part.updated`:
`{ part : { id, messageID, sessionID, type, ... } }`. -/
structure Part where
  id : String
  messageID : String
  sessionID : String
  payload : String
deriving DecidableEq

/-- A reconciled message: envelope plus its ordered part sequence, mirroring
the documented `interface Message { info: MessageUnion; parts: PartUnion[] }`. -/
structure Message where
  info : MsgInfo
  parts : List Part
deriving DecidableEq

/-- A pending permission request (`permission.updated` payload). -/
structure PermissionReq where
  id : String
  sessionID : String
  payload : String
deriving DecidableEq

/-- The wire event union: one constructor per event kind that carries an
ordering obligation, plus `other` for the auxiliary / unrecognized kinds
(installation.updated, file.edited, todo.updated, diagnostics, ...) that the
reconciler accepts and dispatches with no store effect. -/
inductive Event where
  | sessionUpdated (info : SessionInfo)
  | sessionDeleted (info : SessionInfo)
  | messageUpdated (info : MsgInfo)
  | messageRemoved (messageID sessionID : String)
  | partUpdated (part : Part)
  | partRemoved (messageID partID sessionID : String)
  | permissionUpdated (p : PermissionReq)
  | permissionReplied (permissionID sessionID response : String)
  | serverConnected
  | other (kind payload : String)
deriving DecidableEq

/-- Upsert of a session entity by ID: replace the first entry with the same
id in place, append when absent. -/
def upsertSession (info : SessionInfo) : List SessionInfo → List SessionInfo
  | [] => [info]
  | x :: xs => if x.id == info.id then info :: xs else x :: upsertSession info xs

/-- Delete every session entity with the given id. -/
def deleteSession (sid : String) : List SessionInfo → List SessionInfo
  | [] => []
  | x :: xs => if x.id == sid then deleteSession sid xs else x :: deleteSession sid xs

/-- Does the message sequence contain a message with this id? -/
def containsMsg (mid : String) (l : List Message) : Bool :=
  l.any (fun m => m.info.id == mid)

/-- `message.updated` on an existing message: replace the envelope fields in
place, leaving each matching message's part sequence untouched. -/
def replaceEnvelope (info : MsgInfo) : List Message → List Message
  | [] => []
  | m :: ms =>
      (if m.info.id == info.id then { m with info := info } else m) :: replaceEnvelope info ms

/-- Lexicographic strict comparison of char sequences, the order the ID
scheme relies on (ordinary string comparison). -/
def charsLtb : List Char → List Char → Bool
  | [], [] => false
  | [], _ :: _ => true
  | _ :: _, [] => false
  | a :: as, b :: bs => if a < b then true else if b < a then false else charsLtb as bs

/-- Ordinary string comparison on identifiers, computed on the underlying
char sequences. -/
def idLtb (a b : String) : Bool := charsLtb a.data b.data

/-- Insertion of a new message at the position that preserves ascending ID
order, as in the documented loop `if (existingID < newMessageID) insertIndex
= i + 1`: the new message lands after every existing neighbor whose ID is
smaller. -/
def insertMessage (m : Message) : List Message → List Message
  | [] => [m]
  | x :: xs => if idLtb x.info.id m.info.id then x :: insertMessage m xs else m :: x :: xs

/-- Delete every message with the given id from a message sequence. -/
def deleteMsg (mid : String) : List Message → List Message
  | [] => []
  | m :: ms => if m.info.id == mid then deleteMsg mid ms else m :: deleteMsg mid ms

/-- `message.part.updated` inside the owning message: replace the first part
with the same id in place (preserving its position), otherwise append the new
part at the end of the part sequence. -/
def upsertPart (p : Part) : List Part → List Part
  | [] => [p]
  | q :: qs => if q.id == p.id then p :: qs else q :: upsertPart p qs

/-- Apply `upsertPart` to the parts of every message whose id is the part's
`messageID`. -/
def updateParts (p : Part) : List Message → List Message
  | [] => []
  | m :: ms =>
      (if m.info.id == p.messageID then { m with parts := upsertPart p m.parts } else m)
        :: updateParts p ms

/-- Delete every part with the given id from a part sequence. -/
def deletePart (pid : String) : List Part → List Part
  | [] => []
  | q :: qs => if q.id == pid then deletePart pid qs else q :: deletePart pid qs

/-- Does some message with id `mid` own a part with id `pid`? -/
def msgHasPart (mid pid : String) (l : List Message) : Bool :=
  l.any (fun m => m.info.id == mid && m.parts.any (fun q => q.id == pid))

/-- Remove the part `pid` from every message with id `mid`. -/
def removePart (mid pid : String) : List Message → List Message
  | [] => []
  | m :: ms =>
      (if m.info.id == mid then { m with parts := deletePart pid m.parts } else m)
        :: removePart mid pid ms

/-- Upsert of a permission request by ID. -/
def upsertPerm (p : PermissionReq) : List PermissionReq → List PermissionReq
  | [] => [p]
  | x :: xs => if x.id == p.id then p :: xs else x :: upsertPerm p xs

/-- Delete every permission request with the given id. -/
def deletePerm (pid : String) : List PermissionReq → List PermissionReq
  | [] => []
  | x :: xs => if x.id == pid then deletePerm pid xs else x :: deletePerm pid xs

/-- Look up the message sequence stored for a session id. -/
def getMsgs (sid : String) : List (String × List Message) → Option (List Message)
  | [] => none
  | (k, v) :: rest => if k == sid then some v else getMsgs sid rest

/-- Store the message sequence for a session id, replacing the first existing
entry or appending a fresh one. -/
def setMsgs (sid : String) (msgs : List Message) :
    List (String × List Message) → List (String × List Message)
  | [] => [(sid, msgs)]
  | (k, v) :: rest =>
      if k == sid then (k, msgs) :: rest else (k, v) :: setMsgs sid msgs rest

/-- Modelled from the spec: the Local Store maintained by the client-side
Reconciler (its React-state implementation is not among the shipped sources;
src/EVENTS.md only describes it).  Sessions, a per-session ordered message
sequence, the pending permission set and the active-permission marker. -/
structure Store where
  sessions : List SessionInfo
  messages : List (String × List Message)
  permissions : List PermissionReq
  currentPermission : Option String
deriving DecidableEq

/-- The store of a freshly attached consumer: nothing reconciled yet. -/
def emptyStore : Store := ⟨[], [], [], none⟩

/-- `listMessages(sessionID)`: the session's message sequence (ordered by ID
ascending once maintained by `ingest`). -/
def listMessages (st : Store) (sid : String) : List Message :=
  (getMsgs sid st.messages).getD []

/-- Find the first message with the given id in a message sequence. -/
def findMsg (mid : String) : List Message → Option Message
  | [] => none
  | m :: ms => if m.info.id == mid then some m else findMsg mid ms

/-- `listParts(messageID)` within a session: the part sequence of the named
message, in insertion/update order; empty when the message is absent. -/
def listParts (st : Store) (sid mid : String) : List Part :=
  ((findMsg mid (listMessages st sid)).map Message.parts).getD []

/-- The ordering oracle on reconciled messages: strict comparison of their
monotonically-increasing-lexicographic ID strings. -/
def idLt (a b : Message) : Prop := a.info.id < b.info.id

instance : IsAntisymm Message idLt :=
  ⟨fun _ _ h1 h2 => absurd (lt_trans h1 h2) (lt_irrefl _)⟩

/-- Modelled from the spec: `ingest` of the client-side Reconciler, one case
per event kind of section 4.3 (the reconciler implementation is absent from
the shipped sources).  Upserts write into the session identified by the
event's own sessionID; deletes of absent entities and parts of locally
unseen messages are silent no-ops; unrecognized kinds are ignored. -/
def ingest (st : Store) (e : Event) : Store :=
  match e with
  | .sessionUpdated info => { st with sessions := upsertSession info st.sessions }
  | .sessionDeleted info => { st with sessions := deleteSession info.id st.sessions }
  | .messageUpdated info =>
      let msgs := (getMsgs info.sessionID st.messages).getD []
      let newMsgs :=
        if containsMsg info.id msgs then replaceEnvelope info msgs
        else insertMessage ⟨info, []⟩ msgs
      { st with messages := setMsgs info.sessionID newMsgs st.messages }
  | .messageRemoved mid sid =>
      match getMsgs sid st.messages with
      | none => st
      | some msgs =>
          if containsMsg mid msgs then
            { st with messages := setMsgs sid (deleteMsg mid msgs) st.messages }
          else st
  | .partUpdated p =>
      match getMsgs p.sessionID st.messages with
      | none => st
      | some msgs =>
          if containsMsg p.messageID msgs then
            { st with messages := setMsgs p.sessionID (updateParts p msgs) st.messages }
          else st
  | .partRemoved mid pid sid =>
      match getMsgs sid st.messages with
      | none => st
      | some msgs =>
          if msgHasPart mid pid msgs then
            { st with messages := setMsgs sid (removePart mid pid msgs) st.messages }
          else st
  | .permissionUpdated p =>
      { st with
          permissions := upsertPerm p st.permissions
          currentPermission := some p.id }
  | .permissionReplied pid _ _ =>
      { st with
          permissions := deletePerm pid st.permissions
          currentPermission :=
            if st.currentPermission == some pid then none else st.currentPermission }
  | .serverConnected => st
  | .other _ _ => st

/-- Feed a frame sequence to the Reconciler strictly in arrival order. -/
def applyEvents (st : Store) : List Event → Store
  | [] => st
  | e :: es => applyEvents (ingest st e) es

/-- The React state held by the Web interface as described in src/EVENTS.md:
the current session (if any), the current session's message list, the
permission list and the current permission marker. -/
structure WebState where
  currentSession : Option SessionInfo
  messages : List Message
  permissions : List PermissionReq
  currentPermission : Option String
deriving DecidableEq

/-- The id of the currently displayed session, if one is selected. -/
def currentId (st : WebState) : Option String :=
  st.currentSession.map SessionInfo.id

/-- The per-event "Web Handling" stated in src/EVENTS.md, including its
Session-Specific Filtering section: "Most events are filtered by sessionID to
only affect the current session", "Message updates only apply to current
session", `session.updated` "updates the current session if IDs match", and
`session.deleted` "clears current session and messages if deleted session
matches current session". -/
def webIngest (st : WebState) (e : Event) : WebState :=
  match e with
  | .sessionUpdated info =>
      if currentId st == some info.id then { st with currentSession := some info } else st
  | .sessionDeleted info =>
      if currentId st == some info.id then
        { st with currentSession := none, messages := [] }
      else st
  | .messageUpdated info =>
      if currentId st == some info.sessionID then
        { st with
            messages :=
              if containsMsg info.id st.messages then replaceEnvelope info st.messages
              else insertMessage ⟨info, []⟩ st.messages }
      else st
  | .messageRemoved mid sid =>
      if currentId st == some sid then { st with messages := deleteMsg mid st.messages }
      else st
  | .partUpdated p =>
      if currentId st == some p.sessionID then
        if containsMsg p.messageID st.messages then
          { st with messages := updateParts p st.messages }
        else st
      else st
  | .partRemoved mid pid sid =>
      if currentId st == some sid then
        if msgHasPart mid pid st.messages then
          { st with messages := removePart mid pid st.messages }
        else st
      else st
  | .permissionUpdated p =>
      if currentId st == some p.sessionID then
        { st with
            permissions := upsertPerm p st.permissions
            currentPermission := some p.id }
      else st
  | .permissionReplied pid _ _ =>
      { st with
          permissions := deletePerm pid st.permissions
          currentPermission :=
            if st.currentPermission == some pid then none else st.currentPermission }
  | .serverConnected => st
  | .other _ _ => st

/-- A wire frame as seen by the Reconciler after stream framing is stripped:
either a well-formed event, or a frame whose payload could not be parsed /
is missing a required field for its declared kind. -/
inductive Frame where
  | ok (e : Event)
  | malformed (raw : String)
deriving DecidableEq

/-- Modelled from the spec: frame-level ingestion (the parsing layer of the
client is not among the shipped sources).  A malformed frame is rejected by
itself, leaving the store untouched; a well-formed frame is dispatched to
`ingest`. -/
def ingestFrame (st : Store) (f : Frame) : Store :=
  match f with
  | .ok e => ingest st e
  | .malformed _ => st

/-- Process a whole frame sequence in arrival order. -/
def applyFrames (st : Store) : List Frame → Store
  | [] => st
  | f :: fs => applyFrames (ingestFrame st f) fs

/-- The event-kind tag serialized into the wire frame's `type` field. -/
def eventType : Event → String
  | .sessionUpdated _ => "session.updated"
  | .sessionDeleted _ => "session.deleted"
  | .messageUpdated _ => "message.updated"
  | .messageRemoved _ _ => "message.removed"
  | .partUpdated _ => "message.part.updated"
  | .partRemoved _ _ _ => "message.part.removed"
  | .permissionUpdated _ => "permission.updated"
  | .permissionReplied _ _ _ => "permission.replied"
  | .serverConnected => "server.connected"
  | .other kind _ => kind

/-- The frame sequence written to one stream connection by the `/event`
endpoint quoted in src/EVENTS.md: one synthetic `server.connected` frame on
attach, then one frame per bus event in bus publish order. -/
def streamFrames (busEvents : List Event) : List Event :=
  Event.serverConnected :: busEvents

end OpencodeWeb

namespace Publish

/-- One observable side effect of src/script/publish.ts, in program order. -/
inductive PubAction where
  | resolvePrevious
  | collectNotes
  | updateVersions (version : String)
  | installDeps
  | buildArtifact
  | gitAdd
  | gitCommit (msg : String)
  | gitTag (tag : String)
  | gitPush (branch : String)
  | ghRelease (tag : String)
deriving DecidableEq

/-- `commitAndTag` of src/script/publish.ts: reads `git status --porcelain`;
on a clean worktree (trimmed output empty) it skips commit and tag and
returns false, otherwise it stages, commits and tags, returning true. -/
def commitAndTag (version : String) (gitStatus : String) : Bool × List PubAction :=
  if gitStatus.trim = "" then (false, [])
  else
    (true,
      [PubAction.gitAdd, PubAction.gitCommit ("release: v" ++ version),
       PubAction.gitTag ("v" ++ version)])

/-- `pushChanges` of src/script/publish.ts: returns immediately when nothing
was committed, otherwise pushes the release commit and tags. -/
def pushChanges (versionCommitted : Bool) (branch : String) : List PubAction :=
  if versionCommitted then [PubAction.gitPush branch] else []

/-- `run` of src/script/publish.ts as its effect trace: previous-version
lookup and release-notes collection are skipped on the preview channel;
versions are updated, dependencies installed and the artifact built on every
channel; the commit/tag, push and GitHub-release steps run only off the
preview channel. -/
def run (preview : Bool) (version : String) (gitStatus : String) (branch : String) :
    List PubAction :=
  (if preview then [] else [PubAction.resolvePrevious]) ++
  (if preview then [] else [PubAction.collectNotes]) ++
  [PubAction.updateVersions version, PubAction.installDeps, PubAction.buildArtifact] ++
  (if preview then []
   else
     (commitAndTag version gitStatus).2 ++
     pushChanges (commitAndTag version gitStatus).1 branch ++
     [PubAction.ghRelease ("v" ++ version)])

end Publish

open OpencodeWeb Publish

/-- C9: on every stream connection the first emitted frame is the synthetic
`server.connected` frame (empty properties), no bus-sourced frame precedes
it, and the bus-sourced frames follow in bus publish order. -/
theorem stream_first_frame_connected (busEvents : List Event) :
    (streamFrames busEvents).head? = some Event.serverConnected ∧
    eventType Event.serverConnected = "server.connected" ∧
    (streamFrames busEvents).tail = busEvents ∧
    ∀ i : Nat, (streamFrames busEvents)[i + 1]? = busEvents[i]? := by
  refine ⟨rfl, rfl, rfl, fun i => ?_⟩
  simp [streamFrames]

lemma upsertSession_idem (info : SessionInfo) :
    ∀ l, upsertSession info (upsertSession info l) = upsertSession info l := by
  intro l
  induction l with
  | nil => simp [upsertSession]
  | cons x xs ih =>
      cases h : x.id == info.id with
      | true => simp [upsertSession, h]
      | false => simp [upsertSession, h, ih]

lemma deleteSession_idem (sid : String) :
    ∀ l, deleteSession sid (deleteSession sid l) = deleteSession sid l := by
  intro l
  induction l with
  | nil => rfl
  | cons x xs ih =>
      cases h : x.id == sid with
      | true => simp [deleteSession, h, ih]
      | false => simp [deleteSession, h, ih]

lemma getMsgs_setMsgs_self (sid : String) (v : List Message) :
    ∀ ms, getMsgs sid (setMsgs sid v ms) = some v := by
  intro ms
  induction ms with
  | nil => simp [setMsgs, getMsgs]
  | cons kv rest ih =>
      obtain ⟨k, w⟩ := kv
      cases h : k == sid with
      | true => simp [setMsgs, getMsgs, h]
      | false => simp [setMsgs, getMsgs, h, ih]

lemma setMsgs_setMsgs (sid : String) (v w : List Message) :
    ∀ ms, setMsgs sid v (setMsgs sid w ms) = setMsgs sid v ms := by
  intro ms
  induction ms with
  | nil => simp [setMsgs]
  | cons kv rest ih =>
      obtain ⟨k, x⟩ := kv
      cases h : k == sid with
      | true => simp [setMsgs, h]
      | false => simp [setMsgs, h, ih]

lemma containsMsg_replaceEnvelope (mid : String) (info : MsgInfo) :
    ∀ l, containsMsg mid (replaceEnvelope info l) = containsMsg mid l := by
  intro l
  induction l with
  | nil => rfl
  | cons m ms ih =>
      cases h : m.info.id == info.id with
      | true =>
          have hid : m.info.id = info.id := beq_iff_eq.mp h
          simp [replaceEnvelope, containsMsg, h, hid] at ih ⊢
          rw [ih]
      | false => simp [replaceEnvelope, containsMsg, h] at ih ⊢; rw [ih]

lemma replaceEnvelope_idem (info : MsgInfo) :
    ∀ l, replaceEnvelope info (replaceEnvelope info l) = replaceEnvelope info l := by
  intro l
  induction l with
  | nil => rfl
  | cons m ms ih =>
      cases h : m.info.id == info.id with
      | true => simp [replaceEnvelope, h, ih]
      | false => simp [replaceEnvelope, h, ih]

lemma replaceEnvelope_not_contains (info : MsgInfo) :
    ∀ l, containsMsg info.id l = false → replaceEnvelope info l = l := by
  intro l
  induction l with
  | nil => intro _; rfl
  | cons m ms ih =>
      intro h
      simp [containsMsg, List.any_cons] at h
      obtain ⟨h1, h2⟩ := h
      have hb : (m.info.id == info.id) = false := beq_eq_false_iff_ne.mpr h1
      have h2' : containsMsg info.id ms = false := by
        simp [containsMsg]; exact h2
      simp [replaceEnvelope, hb, ih h2']

lemma containsMsg_insertMessage_self (m : Message) :
    ∀ l, containsMsg m.info.id (insertMessage m l) = true := by
  intro l
  induction l with
  | nil => simp [insertMessage, containsMsg]
  | cons x xs ih =>
      cases h : idLtb x.info.id m.info.id with
      | true => simp [insertMessage, containsMsg, h, List.any_cons] at ih ⊢; right; exact ih
      | false => simp [insertMessage, containsMsg, h, List.any_cons]

lemma replaceEnvelope_insertMessage_fresh (info : MsgInfo) (parts : List OpencodeWeb.Part) :
    ∀ l, containsMsg info.id l = false →
      replaceEnvelope info (insertMessage ⟨info, parts⟩ l) = insertMessage ⟨info, parts⟩ l := by
  intro l
  induction l with
  | nil => intro _; simp [insertMessage, replaceEnvelope]
  | cons x xs ih =>
      intro h
      simp [containsMsg, List.any_cons] at h
      obtain ⟨h1, h2⟩ := h
      have hb : (x.info.id == info.id) = false := beq_eq_false_iff_ne.mpr h1
      have h2' : containsMsg info.id xs = false := by simp [containsMsg]; exact h2
      cases hlt : idLtb x.info.id info.id with
      | true => simp [insertMessage, replaceEnvelope, hlt, hb, ih h2']
      | false =>
          simp [insertMessage, replaceEnvelope, hlt, hb]
          exact replaceEnvelope_not_contains info xs h2'

lemma containsMsg_deleteMsg (mid : String) :
    ∀ l, containsMsg mid (deleteMsg mid l) = false := by
  intro l
  induction l with
  | nil => rfl
  | cons m ms ih =>
      cases h : m.info.id == mid with
      | true => simp [deleteMsg, h, ih]
      | false => simp [deleteMsg, containsMsg, List.any_cons, h] at ih ⊢; exact ih

lemma containsMsg_updateParts (mid : String) (p : OpencodeWeb.Part) :
    ∀ l, containsMsg mid (updateParts p l) = containsMsg mid l := by
  intro l
  induction l with
  | nil => rfl
  | cons m ms ih =>
      cases h : m.info.id == p.messageID with
      | true =>
          simp [updateParts, containsMsg, List.any_cons, h] at ih ⊢
          rw [ih]
      | false =>
          simp [updateParts, containsMsg, List.any_cons, h] at ih ⊢
          rw [ih]

lemma upsertPart_idem (p : OpencodeWeb.Part) :
    ∀ qs, upsertPart p (upsertPart p qs) = upsertPart p qs := by
  intro qs
  induction qs with
  | nil => simp [upsertPart]
  | cons q rest ih =>
      cases h : q.id == p.id with
      | true => simp [upsertPart, h]
      | false => simp [upsertPart, h, ih]

lemma updateParts_idem (p : OpencodeWeb.Part) :
    ∀ l, updateParts p (updateParts p l) = updateParts p l := by
  intro l
  induction l with
  | nil => rfl
  | cons m ms ih =>
      cases h : m.info.id == p.messageID with
      | true => simp [updateParts, h, ih, upsertPart_idem]
      | false => simp [updateParts, h, ih]

lemma deletePart_not_any (pid : String) :
    ∀ qs, (deletePart pid qs).any (fun q => q.id == pid) = false := by
  intro qs
  induction qs with
  | nil => rfl
  | cons q rest ih =>
      cases h : q.id == pid with
      | true => simp [deletePart, h, ih]
      | false => simp [deletePart, List.any_cons, h, ih]

lemma msgHasPart_removePart (mid pid : String) :
    ∀ l, msgHasPart mid pid (removePart mid pid l) = false := by
  intro l
  induction l with
  | nil => rfl
  | cons m ms ih =>
      cases h : m.info.id == mid with
      | true =>
          simp [removePart, msgHasPart, List.any_cons, h, deletePart_not_any]
          simpa [msgHasPart] using ih
      | false =>
          simp [removePart, msgHasPart, List.any_cons, h]
          simpa [msgHasPart] using ih

lemma upsertPerm_idem (p : PermissionReq) :
    ∀ l, upsertPerm p (upsertPerm p l) = upsertPerm p l := by
  intro l
  induction l with
  | nil => simp [upsertPerm]
  | cons x xs ih =>
      cases h : x.id == p.id with
      | true => simp [upsertPerm, h]
      | false => simp [upsertPerm, h, ih]

lemma deletePerm_idem (pid : String) :
    ∀ l, deletePerm pid (deletePerm pid l) = deletePerm pid l := by
  intro l
  induction l with
  | nil => rfl
  | cons x xs ih =>
      cases h : x.id == pid with
      | true => simp [deletePerm, h, ih]
      | false => simp [deletePerm, h, ih]

lemma charsLtb_iff_lex :
    ∀ as bs : List Char, charsLtb as bs = true ↔ List.Lex (· < ·) as bs := by
  intro as
  induction as with
  | nil =>
      intro bs
      cases bs with
      | nil => exact Iff.intro (fun h => nomatch h) (fun h => nomatch h)
      | cons b bs => exact ⟨fun _ => List.Lex.nil, fun _ => rfl⟩
  | cons a as ih =>
      intro bs
      cases bs with
      | nil => exact Iff.intro (fun h => nomatch h) (fun h => nomatch h)
      | cons b bs =>
          by_cases hab : a < b
          · refine ⟨fun _ => List.Lex.rel hab, fun _ => by simp [charsLtb, hab]⟩
          · by_cases hba : b < a
            · refine ⟨fun h => ?_, fun h => ?_⟩
              · rw [show charsLtb (a :: as) (b :: bs) = false from by
                    simp [charsLtb, hab, hba]] at h
                cases h
              · cases h with
                | cons h' => exact absurd hba (lt_irrefl a)
                | rel h' => exact absurd h' hab
            · have heq : a = b := le_antisymm (le_of_not_lt hba) (le_of_not_lt hab)
              subst heq
              rw [show charsLtb (a :: as) (a :: bs) = charsLtb as bs from by
                  simp [charsLtb, hab]]
              refine ⟨fun h => List.Lex.cons ((ih bs).mp h), fun h => ?_⟩
              cases h with
              | cons h' => exact (ih bs).mpr h'
              | rel h' => exact absurd h' (lt_irrefl a)

lemma idLtb_iff_lt (a b : String) : idLtb a b = true ↔ a < b := by
  rw [String.lt_iff_toList_lt]
  exact charsLtb_iff_lex a.data b.data

lemma containsMsg_eq_false_iff (mid : String) (l : List Message) :
    containsMsg mid l = false ↔ ∀ x ∈ l, x.info.id ≠ mid := by
  simp [containsMsg]

lemma containsMsg_insertMessage_mk (info : MsgInfo) (parts : List OpencodeWeb.Part) :
    ∀ l, containsMsg info.id (insertMessage ⟨info, parts⟩ l) = true := by
  intro l
  have h := containsMsg_insertMessage_self ⟨info, parts⟩ l
  simpa using h

/-- C4: ingesting the same event twice in immediate succession leaves the
store exactly as ingesting it once, for every event kind and every store
state — duplicate upserts with identical content change nothing, duplicate
deletes that already took effect are no-ops. -/
theorem reconciler_idempotent (st : Store) (e : Event) :
    ingest (ingest st e) e = ingest st e := by
  cases e with
  | sessionUpdated info => simp [ingest, upsertSession_idem]
  | sessionDeleted info => simp [ingest, deleteSession_idem]
  | messageUpdated info =>
      cases h : containsMsg info.id ((getMsgs info.sessionID st.messages).getD []) with
      | true =>
          simp [ingest, h, getMsgs_setMsgs_self, containsMsg_replaceEnvelope,
            replaceEnvelope_idem, setMsgs_setMsgs]
      | false =>
          simp [ingest, h, getMsgs_setMsgs_self, containsMsg_insertMessage_mk,
            replaceEnvelope_insertMessage_fresh, setMsgs_setMsgs]
  | messageRemoved mid sid =>
      cases hg : getMsgs sid st.messages with
      | none => simp [ingest, hg]
      | some msgs =>
          cases h : containsMsg mid msgs with
          | false => simp [ingest, hg, h]
          | true =>
              simp [ingest, hg, h, getMsgs_setMsgs_self, containsMsg_deleteMsg,
                setMsgs_setMsgs]
  | partUpdated p =>
      cases hg : getMsgs p.sessionID st.messages with
      | none => simp [ingest, hg]
      | some msgs =>
          cases h : containsMsg p.messageID msgs with
          | false => simp [ingest, hg, h]
          | true =>
              simp [ingest, hg, h, getMsgs_setMsgs_self, containsMsg_updateParts,
                updateParts_idem, setMsgs_setMsgs]
  | partRemoved mid pid sid =>
      cases hg : getMsgs sid st.messages with
      | none => simp [ingest, hg]
      | some msgs =>
          cases h : msgHasPart mid pid msgs with
          | false => simp [ingest, hg, h]
          | true =>
              simp [ingest, hg, h, getMsgs_setMsgs_self, msgHasPart_removePart,
                setMsgs_setMsgs]
  | permissionUpdated p => simp [ingest, upsertPerm_idem]
  | permissionReplied pid sid resp =>
      cases hc : st.currentPermission == some pid with
      | true =>
          have hn : ((none : Option String) == some pid) = false := rfl
          simp [ingest, hc, hn, deletePerm_idem]
      | false => simp [ingest, hc, deletePerm_idem]
  | serverConnected => rfl
  | other kind payload => rfl

lemma listMessages_ingest_present (st : Store) (info : MsgInfo) (sid : String)
    (h : info.sessionID = sid)
    (hc : containsMsg info.id (listMessages st sid) = true) :
    listMessages (ingest st (Event.messageUpdated info)) sid =
      replaceEnvelope info (listMessages st sid) := by
  subst h
  have hc' : containsMsg info.id ((getMsgs info.sessionID st.messages).getD []) = true := hc
  simp [ingest, listMessages, getMsgs_setMsgs_self, hc']

lemma listMessages_ingest_fresh (st : Store) (info : MsgInfo) (sid : String)
    (h : info.sessionID = sid)
    (hc : containsMsg info.id (listMessages st sid) = false) :
    listMessages (ingest st (Event.messageUpdated info)) sid =
      insertMessage ⟨info, []⟩ (listMessages st sid) := by
  subst h
  have hc' : containsMsg info.id ((getMsgs info.sessionID st.messages).getD []) = false := hc
  simp [ingest, listMessages, getMsgs_setMsgs_self, hc']

lemma replaceEnvelope_parts (info : MsgInfo) :
    ∀ l, (replaceEnvelope info l).map Message.parts = l.map Message.parts := by
  intro l
  induction l with
  | nil => rfl
  | cons m ms ih =>
      cases h : m.info.id == info.id with
      | true => simp [replaceEnvelope, h, ih]
      | false => simp [replaceEnvelope, h, ih]

lemma replaceEnvelope_ids (info : MsgInfo) :
    ∀ l, (replaceEnvelope info l).map (fun m => m.info.id) =
      l.map (fun m => m.info.id) := by
  intro l
  induction l with
  | nil => rfl
  | cons m ms ih =>
      cases h : m.info.id == info.id with
      | true =>
          have hid : m.info.id = info.id := beq_iff_eq.mp h
          simp [replaceEnvelope, h, ih, hid]
      | false => simp [replaceEnvelope, h, ih]

lemma replaceEnvelope_matched (info : MsgInfo) :
    ∀ l, ∀ m ∈ replaceEnvelope info l, m.info.id = info.id → m.info = info := by
  intro l
  induction l with
  | nil => intro m hm; cases hm
  | cons x xs ih =>
      intro m hm
      cases h : x.info.id == info.id with
      | true =>
          rw [show replaceEnvelope info (x :: xs) =
              { x with info := info } :: replaceEnvelope info xs from by
            simp [replaceEnvelope, h]] at hm
          rcases List.mem_cons.mp hm with rfl | hm'
          · intro _; rfl
          · exact ih m hm'
      | false =>
          rw [show replaceEnvelope info (x :: xs) = x :: replaceEnvelope info xs from by
            simp [replaceEnvelope, h]] at hm
          rcases List.mem_cons.mp hm with rfl | hm'
          · intro hx; exact absurd hx (beq_eq_false_iff_ne.mp h)
          · exact ih m hm'

lemma insertMessage_split (m : Message) :
    ∀ l, List.Sorted idLt l → (∀ x ∈ l, x.info.id ≠ m.info.id) →
      ∃ P S, l = P ++ S ∧ insertMessage m l = P ++ m :: S ∧
        (∀ x ∈ P, x.info.id ≤ m.info.id) ∧ (∀ x ∈ S, m.info.id < x.info.id) := by
  intro l
  induction l with
  | nil =>
      intro _ _
      exact ⟨[], [], rfl, rfl, fun x hx => absurd hx (List.not_mem_nil x),
        fun x hx => absurd hx (List.not_mem_nil x)⟩
  | cons x xs ih =>
      intro hs hf
      rcases List.sorted_cons.mp hs with ⟨hx, hxs⟩
      cases hlt : idLtb x.info.id m.info.id with
      | true =>
          have hxm : x.info.id < m.info.id := (idLtb_iff_lt _ _).mp hlt
          obtain ⟨P, S, h1, h2, h3, h4⟩ :=
            ih hxs (fun y hy => hf y (List.mem_cons_of_mem _ hy))
          refine ⟨x :: P, S, by simp [h1], by simp [insertMessage, hlt, h2], ?_, h4⟩
          intro y hy
          rcases List.mem_cons.mp hy with rfl | hy'
          · exact le_of_lt hxm
          · exact h3 y hy'
      | false =>
          have hnlt : ¬ x.info.id < m.info.id := by
            intro hc
            rw [(idLtb_iff_lt _ _).mpr hc] at hlt
            cases hlt
          have hmx : m.info.id < x.info.id :=
            lt_of_le_of_ne (not_lt.mp hnlt)
              (Ne.symm (hf x (List.mem_cons_self _ _)))
          refine ⟨[], x :: xs, rfl, by simp [insertMessage, hlt], ?_, ?_⟩
          · intro y hy; exact absurd hy (List.not_mem_nil y)
          · intro y hy
            rcases List.mem_cons.mp hy with rfl | hy'
            · exact hmx
            · exact lt_trans hmx (hx y hy')

/-- C5: `message.updated` for an existing message replaces only the envelope
(the id sequence and every part sequence are untouched, and the matched
message's envelope becomes the event's `info`); for an absent message it is
inserted at the unique position preserving ascending ID order — after every
neighbor whose ID is at most the new ID and before every neighbor whose ID
is greater. -/
theorem messageUpdated_upsert (st : Store) (info : MsgInfo) :
    (containsMsg info.id (listMessages st info.sessionID) = true →
      ((listMessages (ingest st (Event.messageUpdated info)) info.sessionID).map
          Message.parts = (listMessages st info.sessionID).map Message.parts) ∧
      ((listMessages (ingest st (Event.messageUpdated info)) info.sessionID).map
          (fun m => m.info.id) =
        (listMessages st info.sessionID).map (fun m => m.info.id)) ∧
      (∀ m ∈ listMessages (ingest st (Event.messageUpdated info)) info.sessionID,
          m.info.id = info.id → m.info = info)) ∧
    (containsMsg info.id (listMessages st info.sessionID) = false →
      List.Sorted idLt (listMessages st info.sessionID) →
      ∃ P S, listMessages st info.sessionID = P ++ S ∧
        listMessages (ingest st (Event.messageUpdated info)) info.sessionID =
          P ++ (⟨info, []⟩ : Message) :: S ∧
        (∀ x ∈ P, x.info.id ≤ info.id) ∧ (∀ x ∈ S, info.id < x.info.id)) := by
  constructor
  · intro hc
    rw [listMessages_ingest_present st info info.sessionID rfl hc]
    exact ⟨replaceEnvelope_parts info _, replaceEnvelope_ids info _,
      replaceEnvelope_matched info _⟩
  · intro hc hsort
    rw [listMessages_ingest_fresh st info info.sessionID rfl hc]
    have hf : ∀ x ∈ listMessages st info.sessionID, x.info.id ≠ info.id :=
      (containsMsg_eq_false_iff _ _).mp hc
    exact insertMessage_split ⟨info, []⟩ _ hsort hf

/-- Witness for C5 at concrete stores: one exercising the replace branch, one
exercising the sorted insertion branch. -/
theorem messageUpdated_upsert_witness :
    (containsMsg "m1"
        (listMessages ⟨[], [("s1", [⟨⟨"m1", "s1", "old"⟩, [⟨"p1", "m1", "s1", ""⟩]⟩])], [], none⟩
          "s1") = true ∧
      ((listMessages
          (ingest ⟨[], [("s1", [⟨⟨"m1", "s1", "old"⟩, [⟨"p1", "m1", "s1", ""⟩]⟩])], [], none⟩
            (Event.messageUpdated ⟨"m1", "s1", "new"⟩)) "s1").map Message.parts =
        (listMessages ⟨[], [("s1", [⟨⟨"m1", "s1", "old"⟩, [⟨"p1", "m1", "s1", ""⟩]⟩])], [], none⟩
          "s1").map Message.parts)) ∧
    (containsMsg "0z"
        (listMessages ⟨[], [("s1", [⟨⟨"1k", "s1", ""⟩, []⟩])], [], none⟩ "s1") = false ∧
      List.Sorted idLt
        (listMessages ⟨[], [("s1", [⟨⟨"1k", "s1", ""⟩, []⟩])], [], none⟩ "s1") ∧
      ∃ P S,
        listMessages ⟨[], [("s1", [⟨⟨"1k", "s1", ""⟩, []⟩])], [], none⟩ "s1" = P ++ S ∧
        listMessages
            (ingest ⟨[], [("s1", [⟨⟨"1k", "s1", ""⟩, []⟩])], [], none⟩
              (Event.messageUpdated ⟨"0z", "s1", ""⟩)) "s1" =
          P ++ (⟨⟨"0z", "s1", ""⟩, []⟩ : Message) :: S ∧
        (∀ x ∈ P, x.info.id ≤ "0z") ∧ (∀ x ∈ S, ("0z" : String) < x.info.id)) :=
  ⟨⟨by decide,
    ((messageUpdated_upsert
        ⟨[], [("s1", [⟨⟨"m1", "s1", "old"⟩, [⟨"p1", "m1", "s1", ""⟩]⟩])], [], none⟩
        ⟨"m1", "s1", "new"⟩).1 (by decide)).1⟩,
   by decide,
   by
     constructor
     · simp [listMessages, getMsgs]
     · exact (messageUpdated_upsert
        ⟨[], [("s1", [⟨⟨"1k", "s1", ""⟩, []⟩])], [], none⟩
        ⟨"0z", "s1", ""⟩).2 (by decide) (by simp [listMessages, getMsgs])⟩

lemma insertMessage_perm (m : Message) : ∀ l, List.Perm (insertMessage m l) (m :: l) := by
  intro l
  induction l with
  | nil => exact List.Perm.refl _
  | cons x xs ih =>
      cases h : idLtb x.info.id m.info.id with
      | true =>
          rw [show insertMessage m (x :: xs) = x :: insertMessage m xs from by
            simp [insertMessage, h]]
          exact (ih.cons x).trans (List.Perm.swap m x xs)
      | false =>
          rw [show insertMessage m (x :: xs) = m :: x :: xs from by
            simp [insertMessage, h]]

lemma insertMessage_sorted (m : Message) :
    ∀ l, List.Sorted idLt l → (∀ x ∈ l, x.info.id ≠ m.info.id) →
      List.Sorted idLt (insertMessage m l) := by
  intro l
  induction l with
  | nil => intro _ _; simp [insertMessage]
  | cons x xs ih =>
      intro hs hf
      rcases List.sorted_cons.mp hs with ⟨hx, hxs⟩
      cases h : idLtb x.info.id m.info.id with
      | true =>
          have hxm : x.info.id < m.info.id := (idLtb_iff_lt _ _).mp h
          rw [show insertMessage m (x :: xs) = x :: insertMessage m xs from by
            simp [insertMessage, h]]
          refine List.sorted_cons.mpr
            ⟨?_, ih hxs (fun y hy => hf y (List.mem_cons_of_mem _ hy))⟩
          intro y hy
          have hy' : y = m ∨ y ∈ xs := by
            simpa using (insertMessage_perm m xs).mem_iff.mp hy
          rcases hy' with rfl | hy'
          · exact hxm
          · exact hx y hy'
      | false =>
          have hnlt : ¬ x.info.id < m.info.id := by
            intro hc
            rw [(idLtb_iff_lt _ _).mpr hc] at h
            cases h
          have hmx : m.info.id < x.info.id :=
            lt_of_le_of_ne (not_lt.mp hnlt)
              (Ne.symm (hf x (List.mem_cons_self _ _)))
          rw [show insertMessage m (x :: xs) = m :: x :: xs from by
            simp [insertMessage, h]]
          refine List.sorted_cons.mpr ⟨?_, hs⟩
          intro y hy
          rcases List.mem_cons.mp hy with rfl | hy'
          · exact hmx
          · exact lt_trans hmx (hx y hy')

lemma applyEvents_batch (s : String) :
    ∀ (l : List MsgInfo) (st : Store),
      (∀ i ∈ l, i.sessionID = s) →
      ((listMessages st s).map (fun m => m.info.id) ++ l.map MsgInfo.id).Nodup →
      List.Sorted idLt (listMessages st s) →
      List.Perm (listMessages (applyEvents st (l.map Event.messageUpdated)) s)
          (listMessages st s ++ l.map (fun i => (⟨i, []⟩ : Message))) ∧
      List.Sorted idLt
        (listMessages (applyEvents st (l.map Event.messageUpdated)) s) := by
  intro l
  induction l with
  | nil =>
      intro st _ _ hsort
      exact ⟨by simp [applyEvents], hsort⟩
  | cons i rest ih =>
      intro st hses hnd hsort
      have hses_i : i.sessionID = s := hses i (List.mem_cons_self _ _)
      have hfresh : ∀ x ∈ listMessages st s, x.info.id ≠ i.id := by
        intro x hx hcx
        have hmem1 : i.id ∈ (listMessages st s).map (fun m => m.info.id) :=
          List.mem_map.mpr ⟨x, hx, hcx⟩
        have hmem2 : i.id ∈ (i :: rest).map MsgInfo.id := by simp
        exact (List.disjoint_of_nodup_append hnd) hmem1 hmem2
      have hcontains : containsMsg i.id (listMessages st s) = false :=
        (containsMsg_eq_false_iff _ _).mpr hfresh
      have hstep := listMessages_ingest_fresh st i s hses_i hcontains
      have hsort' :
          List.Sorted idLt (listMessages (ingest st (Event.messageUpdated i)) s) := by
        rw [hstep]
        exact insertMessage_sorted ⟨i, []⟩ _ hsort hfresh
      have hpermIds :
          List.Perm
            ((listMessages (ingest st (Event.messageUpdated i)) s).map
              (fun m => m.info.id))
            (i.id :: (listMessages st s).map (fun m => m.info.id)) := by
        rw [hstep]
        simpa using (insertMessage_perm ⟨i, []⟩ (listMessages st s)).map
          (fun m => m.info.id)
      have hnd' :
          ((listMessages (ingest st (Event.messageUpdated i)) s).map
              (fun m => m.info.id) ++ rest.map MsgInfo.id).Nodup := by
        have h1 :
            ((listMessages st s).map (fun m => m.info.id) ++
                (i :: rest).map MsgInfo.id).Nodup := hnd
        have h2 :
            ((listMessages st s).map (fun m => m.info.id) ++
                i.id :: rest.map MsgInfo.id).Nodup := by simpa using h1
        have h3 :
            (i.id :: ((listMessages st s).map (fun m => m.info.id) ++
                rest.map MsgInfo.id)).Nodup :=
          (List.perm_middle.nodup_iff).mp h2
        exact ((hpermIds.append_right (rest.map MsgInfo.id)).nodup_iff).mpr
          (by simpa using h3)
      obtain ⟨ihp, ihs⟩ :=
        ih (ingest st (Event.messageUpdated i)) (fun j hj => hses j (by simp [hj]))
          hnd' hsort'
      refine ⟨?_, by simpa [applyEvents] using ihs⟩
      have hchain :
          List.Perm
            (listMessages (applyEvents st ((i :: rest).map Event.messageUpdated)) s)
            (insertMessage ⟨i, []⟩ (listMessages st s) ++
              rest.map (fun i => (⟨i, []⟩ : Message))) := by
        simpa [applyEvents, hstep] using ihp
      refine hchain.trans ?_
      have hinsert :
          List.Perm
            (insertMessage ⟨i, []⟩ (listMessages st s) ++
              rest.map (fun i => (⟨i, []⟩ : Message)))
            (((⟨i, []⟩ : Message) :: listMessages st s) ++
              rest.map (fun i => (⟨i, []⟩ : Message))) :=
        (insertMessage_perm ⟨i, []⟩ (listMessages st s)).append_right _
      refine hinsert.trans ?_
      simpa using List.perm_middle.symm

/-- C3: feeding any permutation of a set of `message.updated` events with
pairwise-distinct IDs for one shared session to an empty Reconciler yields
the same final message sequence for that session, and that sequence is
sorted strictly ascending by ID string comparison. -/
theorem messageUpdated_order_insensitive (s : String) (l1 l2 : List MsgInfo)
    (hperm : List.Perm l1 l2) (hses : ∀ i ∈ l1, i.sessionID = s)
    (hnd : (l1.map MsgInfo.id).Nodup) :
    listMessages (applyEvents emptyStore (l1.map Event.messageUpdated)) s =
      listMessages (applyEvents emptyStore (l2.map Event.messageUpdated)) s ∧
    List.Sorted idLt
      (listMessages (applyEvents emptyStore (l1.map Event.messageUpdated)) s) := by
  have hses2 : ∀ i ∈ l2, i.sessionID = s := fun i hi => hses i (hperm.mem_iff.mpr hi)
  have hnd2 : (l2.map MsgInfo.id).Nodup := ((hperm.map MsgInfo.id).nodup_iff).mp hnd
  have hempty : listMessages emptyStore s = [] := rfl
  have r1 := applyEvents_batch s l1 emptyStore hses (by simpa [hempty] using hnd)
    (by simp [hempty])
  have r2 := applyEvents_batch s l2 emptyStore hses2 (by simpa [hempty] using hnd2)
    (by simp [hempty])
  have hp :
      List.Perm
        (listMessages (applyEvents emptyStore (l1.map Event.messageUpdated)) s)
        (listMessages (applyEvents emptyStore (l2.map Event.messageUpdated)) s) := by
    refine r1.1.trans (List.Perm.trans ?_ r2.1.symm)
    simpa [hempty] using hperm.map (fun i => (⟨i, []⟩ : Message))
  exact ⟨List.eq_of_perm_of_sorted hp r1.2 r2.2, r1.2⟩

/-- Witness for C3: the two arrival orders of the `"1k"`/`"0z"` example
converge to the same sorted sequence. -/
theorem messageUpdated_order_insensitive_witness :
    List.Perm ([⟨"1k", "s1", ""⟩, ⟨"0z", "s1", ""⟩] : List MsgInfo)
      [⟨"0z", "s1", ""⟩, ⟨"1k", "s1", ""⟩] ∧
    listMessages
        (applyEvents emptyStore
          (([⟨"1k", "s1", ""⟩, ⟨"0z", "s1", ""⟩] : List MsgInfo).map
            Event.messageUpdated)) "s1" =
      listMessages
        (applyEvents emptyStore
          (([⟨"0z", "s1", ""⟩, ⟨"1k", "s1", ""⟩] : List MsgInfo).map
            Event.messageUpdated)) "s1" :=
  ⟨List.Perm.swap _ _ _,
    (messageUpdated_order_insensitive "s1" _ _ (List.Perm.swap _ _ _)
      (by decide) (by decide)).1⟩

lemma upsertPart_present (p : OpencodeWeb.Part) :
    ∀ qs, qs.any (fun q => q.id == p.id) = true →
      ∃ A B q0, qs = A ++ q0 :: B ∧ (∀ q ∈ A, q.id ≠ p.id) ∧ q0.id = p.id ∧
        upsertPart p qs = A ++ p :: B := by
  intro qs
  induction qs with
  | nil => intro h; cases h
  | cons q rest ih =>
      intro h
      cases hq : q.id == p.id with
      | true =>
          refine ⟨[], rest, q, rfl, ?_, beq_iff_eq.mp hq, by simp [upsertPart, hq]⟩
          intro x hx; exact absurd hx (List.not_mem_nil x)
      | false =>
          have h' : rest.any (fun q => q.id == p.id) = true := by
            simpa [List.any_cons, hq] using h
          obtain ⟨A, B, q0, hsplit, hA, hq0, hup⟩ := ih h'
          refine ⟨q :: A, B, q0, by simp [hsplit], ?_, hq0,
            by simp [upsertPart, hq, hup]⟩
          intro x hx
          rcases List.mem_cons.mp hx with rfl | hx'
          · exact beq_eq_false_iff_ne.mp hq
          · exact hA x hx'

lemma upsertPart_absent (p : OpencodeWeb.Part) :
    ∀ qs, qs.any (fun q => q.id == p.id) = false → upsertPart p qs = qs ++ [p] := by
  intro qs
  induction qs with
  | nil => intro _; rfl
  | cons q rest ih =>
      intro h
      simp only [List.any_cons, Bool.or_eq_false_iff] at h
      obtain ⟨h1, h2⟩ := h
      simp [upsertPart, h1, ih h2]

lemma findMsg_updateParts_self (p : OpencodeWeb.Part) :
    ∀ l, findMsg p.messageID (updateParts p l) =
      (findMsg p.messageID l).map
        (fun m => { m with parts := upsertPart p m.parts }) := by
  intro l
  induction l with
  | nil => rfl
  | cons m ms ih =>
      cases h : m.info.id == p.messageID with
      | true => simp [updateParts, findMsg, h]
      | false => simp [updateParts, findMsg, h, ih]

lemma findMsg_isSome_of_contains :
    ∀ (l : List Message) (mid : String), containsMsg mid l = true →
      ∃ m, findMsg mid l = some m ∧ m.info.id = mid := by
  intro l
  induction l with
  | nil => intro mid h; cases h
  | cons x xs ih =>
      intro mid h
      cases hx : x.info.id == mid with
      | true => exact ⟨x, by simp [findMsg, hx], beq_iff_eq.mp hx⟩
      | false =>
          have h' : containsMsg mid xs = true := by
            simpa [containsMsg, List.any_cons, hx] using h
          obtain ⟨m, hm, hid⟩ := ih mid h'
          exact ⟨m, by simp [findMsg, hx, hm], hid⟩

/-- C6: for `message.part.updated` targeting a locally-present message, an
existing part with the same id is replaced in place (same position, every
other part untouched), and an unseen part id is appended at the end of the
part sequence — parts are kept in arrival order, not ID order. -/
theorem partUpdated_replace_or_append (st : Store) (p : OpencodeWeb.Part)
    (h : containsMsg p.messageID (listMessages st p.sessionID) = true) :
    ((listParts st p.sessionID p.messageID).any (fun q => q.id == p.id) = true →
      ∃ A B q0, listParts st p.sessionID p.messageID = A ++ q0 :: B ∧
        (∀ q ∈ A, q.id ≠ p.id) ∧ q0.id = p.id ∧
        listParts (ingest st (Event.partUpdated p)) p.sessionID p.messageID =
          A ++ p :: B) ∧
    ((listParts st p.sessionID p.messageID).any (fun q => q.id == p.id) = false →
      listParts (ingest st (Event.partUpdated p)) p.sessionID p.messageID =
        listParts st p.sessionID p.messageID ++ [p]) := by
  cases hg : getMsgs p.sessionID st.messages with
  | none =>
      rw [show listMessages st p.sessionID = [] from by simp [listMessages, hg]] at h
      cases h
  | some msgs =>
      have hM : listMessages st p.sessionID = msgs := by simp [listMessages, hg]
      have h' : containsMsg p.messageID msgs = true := hM ▸ h
      obtain ⟨m0, hfind, hm0⟩ := findMsg_isSome_of_contains msgs p.messageID h'
      have hbefore : listParts st p.sessionID p.messageID = m0.parts := by
        simp [listParts, hM, hfind]
      have hafter :
          listParts (ingest st (Event.partUpdated p)) p.sessionID p.messageID =
            upsertPart p m0.parts := by
        simp [ingest, hg, h', listParts, listMessages, getMsgs_setMsgs_self,
          findMsg_updateParts_self, hfind]
      constructor
      · intro hany
        rw [hbefore] at hany
        obtain ⟨A, B, q0, hs, hA, hq0, hup⟩ := upsertPart_present p m0.parts hany
        exact ⟨A, B, q0, by rw [hbefore, hs], hA, hq0, by rw [hafter, hup]⟩
      · intro hany
        rw [hbefore] at hany
        rw [hafter, hbefore, upsertPart_absent p m0.parts hany]

/-- Witness for C6, on the store reached by the claim's own example: after
`message.updated{m1}`, `part.updated{p1}`, `part.updated{p2}`, the part list
is `[p1, p2]`; appending p3 lands at the end, and re-updating p1 keeps its
position. -/
theorem partUpdated_replace_or_append_witness :
    listParts
        (applyEvents emptyStore
          [Event.messageUpdated ⟨"m1", "s1", ""⟩,
           Event.partUpdated ⟨"p1", "m1", "s1", "a"⟩,
           Event.partUpdated ⟨"p2", "m1", "s1", "b"⟩]) "s1" "m1" =
      [⟨"p1", "m1", "s1", "a"⟩, ⟨"p2", "m1", "s1", "b"⟩] ∧
    (containsMsg "m1"
        (listMessages
          (applyEvents emptyStore
            [Event.messageUpdated ⟨"m1", "s1", ""⟩,
             Event.partUpdated ⟨"p1", "m1", "s1", "a"⟩,
             Event.partUpdated ⟨"p2", "m1", "s1", "b"⟩]) "s1") = true) ∧
    listParts
        (ingest
          (applyEvents emptyStore
            [Event.messageUpdated ⟨"m1", "s1", ""⟩,
             Event.partUpdated ⟨"p1", "m1", "s1", "a"⟩,
             Event.partUpdated ⟨"p2", "m1", "s1", "b"⟩])
          (Event.partUpdated ⟨"p3", "m1", "s1", "c"⟩)) "s1" "m1" =
      [⟨"p1", "m1", "s1", "a"⟩, ⟨"p2", "m1", "s1", "b"⟩, ⟨"p3", "m1", "s1", "c"⟩] ∧
    listParts
        (ingest
          (applyEvents emptyStore
            [Event.messageUpdated ⟨"m1", "s1", ""⟩,
             Event.partUpdated ⟨"p1", "m1", "s1", "a"⟩,
             Event.partUpdated ⟨"p2", "m1", "s1", "b"⟩])
          (Event.partUpdated ⟨"p1", "m1", "s1", "z"⟩)) "s1" "m1" =
      [⟨"p1", "m1", "s1", "z"⟩, ⟨"p2", "m1", "s1", "b"⟩] :=
  ⟨by decide, by decide,
    (partUpdated_replace_or_append
        (applyEvents emptyStore
          [Event.messageUpdated ⟨"m1", "s1", ""⟩,
           Event.partUpdated ⟨"p1", "m1", "s1", "a"⟩,
           Event.partUpdated ⟨"p2", "m1", "s1", "b"⟩])
        ⟨"p3", "m1", "s1", "c"⟩ (by decide)).2 (by decide),
    by decide⟩

lemma partUpdated_orphan_noop (st : Store) (p : OpencodeWeb.Part)
    (h : containsMsg p.messageID (listMessages st p.sessionID) = false) :
    ingest st (Event.partUpdated p) = st := by
  cases hg : getMsgs p.sessionID st.messages with
  | none => simp [ingest, hg]
  | some msgs =>
      have h' : containsMsg p.messageID msgs = false := by
        simpa [listMessages, hg] using h
      simp [ingest, hg, h']

lemma messageRemoved_absent_noop (st : Store) (mid sid : String)
    (h : containsMsg mid (listMessages st sid) = false) :
    ingest st (Event.messageRemoved mid sid) = st := by
  cases hg : getMsgs sid st.messages with
  | none => simp [ingest, hg]
  | some msgs =>
      have h' : containsMsg mid msgs = false := by simpa [listMessages, hg] using h
      simp [ingest, hg, h']

lemma partRemoved_absent_noop (st : Store) (mid pid sid : String)
    (h : msgHasPart mid pid (listMessages st sid) = false) :
    ingest st (Event.partRemoved mid pid sid) = st := by
  cases hg : getMsgs sid st.messages with
  | none => simp [ingest, hg]
  | some msgs =>
      have h' : msgHasPart mid pid msgs = false := by simpa [listMessages, hg] using h
      simp [ingest, hg, h']

lemma findMsg_insertMessage_fresh (info : MsgInfo) (parts : List OpencodeWeb.Part) :
    ∀ l, containsMsg info.id l = false →
      findMsg info.id (insertMessage ⟨info, parts⟩ l) = some ⟨info, parts⟩ := by
  intro l
  induction l with
  | nil => intro _; simp [insertMessage, findMsg]
  | cons x xs ih =>
      intro h
      simp only [containsMsg, List.any_cons, Bool.or_eq_false_iff] at h
      obtain ⟨h1, h2⟩ := h
      have h2' : containsMsg info.id xs = false := h2
      cases hlt : idLtb x.info.id info.id with
      | true => simp [insertMessage, findMsg, hlt, h1, ih h2']
      | false => simp [insertMessage, findMsg, hlt]

/-- C7: referential gaps are silent no-ops — an orphan `message.part.updated`
(unseen message) leaves the store identical and is not buffered (when the
message later arrives its part list starts empty), and `message.removed` or
`message.part.removed` naming an absent entity changes nothing. -/
theorem referential_gaps_silent_noop (st : Store) :
    (∀ p : OpencodeWeb.Part,
        containsMsg p.messageID (listMessages st p.sessionID) = false →
        ingest st (Event.partUpdated p) = st) ∧
    (∀ (p : OpencodeWeb.Part) (info : MsgInfo), info.id = p.messageID →
        info.sessionID = p.sessionID →
        containsMsg p.messageID (listMessages st p.sessionID) = false →
        listParts (ingest (ingest st (Event.partUpdated p)) (Event.messageUpdated info))
          info.sessionID info.id = []) ∧
    (∀ mid sid, containsMsg mid (listMessages st sid) = false →
        ingest st (Event.messageRemoved mid sid) = st) ∧
    (∀ mid pid sid, msgHasPart mid pid (listMessages st sid) = false →
        ingest st (Event.partRemoved mid pid sid) = st) := by
  refine ⟨fun p h => partUpdated_orphan_noop st p h, ?_,
    fun mid sid h => messageRemoved_absent_noop st mid sid h,
    fun mid pid sid h => partRemoved_absent_noop st mid pid sid h⟩
  intro p info hid hsid h
  rw [partUpdated_orphan_noop st p h]
  have hfresh : containsMsg info.id (listMessages st info.sessionID) = false := by
    rw [hid, hsid]; exact h
  rw [listParts, listMessages_ingest_fresh st info info.sessionID rfl hfresh,
    findMsg_insertMessage_fresh info [] _ (by rw [hid, hsid]; exact h)]
  rfl

/-- Witness for C7 at a concrete store holding one message `m1` in session
`s1`: an orphan part for a missing message, a redundant message delete and a
redundant part delete all leave the store untouched, and the later-arriving
message starts with no parts. -/
theorem referential_gaps_silent_noop_witness :
    (containsMsg "missing"
        (listMessages ⟨[], [("s1", [⟨⟨"m1", "s1", ""⟩, []⟩])], [], none⟩ "s1") = false ∧
      ingest ⟨[], [("s1", [⟨⟨"m1", "s1", ""⟩, []⟩])], [], none⟩
          (Event.partUpdated ⟨"p1", "missing", "s1", ""⟩) =
        ⟨[], [("s1", [⟨⟨"m1", "s1", ""⟩, []⟩])], [], none⟩) ∧
    listParts
        (ingest
          (ingest ⟨[], [("s1", [⟨⟨"m1", "s1", ""⟩, []⟩])], [], none⟩
            (Event.partUpdated ⟨"p1", "missing", "s1", ""⟩))
          (Event.messageUpdated ⟨"missing", "s1", ""⟩)) "s1" "missing" = [] ∧
    ingest ⟨[], [("s1", [⟨⟨"m1", "s1", ""⟩, []⟩])], [], none⟩
        (Event.messageRemoved "x" "s1") =
      ⟨[], [("s1", [⟨⟨"m1", "s1", ""⟩, []⟩])], [], none⟩ ∧
    ingest ⟨[], [("s1", [⟨⟨"m1", "s1", ""⟩, []⟩])], [], none⟩
        (Event.partRemoved "m1" "p9" "s1") =
      ⟨[], [("s1", [⟨⟨"m1", "s1", ""⟩, []⟩])], [], none⟩ :=
  ⟨⟨by decide,
    (referential_gaps_silent_noop
        ⟨[], [("s1", [⟨⟨"m1", "s1", ""⟩, []⟩])], [], none⟩).1
      ⟨"p1", "missing", "s1", ""⟩ (by decide)⟩,
   (referential_gaps_silent_noop
        ⟨[], [("s1", [⟨⟨"m1", "s1", ""⟩, []⟩])], [], none⟩).2.1
      ⟨"p1", "missing", "s1", ""⟩ ⟨"missing", "s1", ""⟩ rfl rfl (by decide),
   (referential_gaps_silent_noop
        ⟨[], [("s1", [⟨⟨"m1", "s1", ""⟩, []⟩])], [], none⟩).2.2.1
      "x" "s1" (by decide),
   (referential_gaps_silent_noop
        ⟨[], [("s1", [⟨⟨"m1", "s1", ""⟩, []⟩])], [], none⟩).2.2.2
      "m1" "p9" "s1" (by decide)⟩

lemma applyFrames_append (st : Store) (a b : List Frame) :
    applyFrames st (a ++ b) = applyFrames (applyFrames st a) b := by
  induction a generalizing st with
  | nil => rfl
  | cons f fs ih => simp [applyFrames, ih]

/-- C8: a malformed frame, or a frame of an unrecognized kind, affects only
itself: the store is unchanged and every subsequent frame of the stream is
still processed exactly as if the bad frame had not been delivered. -/
theorem malformed_frame_isolated (st : Store) (raw kind payload : String)
    (pre post : List Frame) :
    ingestFrame st (Frame.malformed raw) = st ∧
    ingest st (Event.other kind payload) = st ∧
    applyFrames st (pre ++ Frame.malformed raw :: post) = applyFrames st (pre ++ post) ∧
    applyFrames st (pre ++ Frame.ok (Event.other kind payload) :: post) =
      applyFrames st (pre ++ post) := by
  refine ⟨rfl, rfl, ?_, ?_⟩ <;>
    rw [applyFrames_append, applyFrames_append] <;> rfl

/-- C1 counterexample: with session s1 currently displayed, a
`message.updated` event for session s2 is skipped outright — the store is
left identical and the message is written nowhere, so ingestion is not
independent of the currently displayed session. -/
theorem messageUpdated_dropped_for_other_session :
    webIngest ⟨some ⟨"s1", ""⟩, [], [], none⟩
        (Event.messageUpdated ⟨"m1", "s2", ""⟩) =
      ⟨some ⟨"s1", ""⟩, [], [], none⟩ ∧
    ("s2" : String) ≠ "s1" ∧
    (webIngest ⟨some ⟨"s1", ""⟩, [], [], none⟩
        (Event.messageUpdated ⟨"m1", "s2", ""⟩)).messages = [] := by
  decide

/-- C1 amended: the documented Web interface filters session-carrying events
on the write side — a message, part or permission event whose sessionID
differs from the currently displayed session leaves the local store
completely unchanged. -/
theorem webIngest_write_side_filter (st : WebState) (sid : String)
    (h : currentId st ≠ some sid) :
    (∀ info : MsgInfo, info.sessionID = sid → webIngest st (Event.messageUpdated info) = st) ∧
    (∀ mid, webIngest st (Event.messageRemoved mid sid) = st) ∧
    (∀ p : OpencodeWeb.Part, p.sessionID = sid → webIngest st (Event.partUpdated p) = st) ∧
    (∀ mid pid, webIngest st (Event.partRemoved mid pid sid) = st) ∧
    (∀ p : PermissionReq, p.sessionID = sid →
      webIngest st (Event.permissionUpdated p) = st) := by
  have hb : (currentId st == some sid) = false := beq_eq_false_iff_ne.mpr h
  refine ⟨?_, ?_, ?_, ?_, ?_⟩
  · intro info heq; simp [webIngest, heq, hb]
  · intro mid; simp [webIngest, hb]
  · intro p heq; simp [webIngest, heq, hb]
  · intro mid pid; simp [webIngest, hb]
  · intro p heq; simp [webIngest, heq, hb]

/-- Witness for the amended C1 statement at a concrete state and event. -/
theorem webIngest_write_side_filter_witness :
    currentId ⟨some ⟨"s1", ""⟩, [], [], none⟩ ≠ some "s2" ∧
    webIngest ⟨some ⟨"s1", ""⟩, [], [], none⟩
        (Event.messageUpdated ⟨"m1", "s2", ""⟩) = ⟨some ⟨"s1", ""⟩, [], [], none⟩ :=
  ⟨by decide,
    (webIngest_write_side_filter ⟨some ⟨"s1", ""⟩, [], [], none⟩ "s2"
        (by decide)).1 ⟨"m1", "s2", ""⟩ rfl⟩

/-- C2 counterexample: deleting the currently displayed session does not
leave its messages in the store — the documented handling clears the message
list together with the session. -/
theorem sessionDeleted_clears_current_messages :
    webIngest
        ⟨some ⟨"s1", ""⟩, [⟨⟨"m1", "s1", ""⟩, [⟨"p1", "m1", "s1", ""⟩]⟩], [], none⟩
        (Event.sessionDeleted ⟨"s1", ""⟩) = ⟨none, [], [], none⟩ ∧
    ([⟨⟨"m1", "s1", ""⟩, [⟨"p1", "m1", "s1", ""⟩]⟩] : List Message) ≠ [] := by
  decide

/-- C2 amended: `session.deleted` leaves permissions untouched; when the
deleted session is the currently displayed one it clears both the current
session and its entire message list, and when it is any other session the
store is left unchanged. -/
theorem sessionDeleted_cascade_iff_current (st : WebState) (info : SessionInfo) :
    (webIngest st (Event.sessionDeleted info)).permissions = st.permissions ∧
    (webIngest st (Event.sessionDeleted info)).currentPermission = st.currentPermission ∧
    (currentId st = some info.id →
        (webIngest st (Event.sessionDeleted info)).currentSession = none ∧
        (webIngest st (Event.sessionDeleted info)).messages = []) ∧
    (currentId st ≠ some info.id → webIngest st (Event.sessionDeleted info) = st) := by
  by_cases h : currentId st = some info.id
  · have hb : (currentId st == some info.id) = true := beq_iff_eq.mpr h
    simp [webIngest, hb, h]
  · have hb : (currentId st == some info.id) = false := beq_eq_false_iff_ne.mpr h
    simp [webIngest, hb, h]

/-- Witness for the amended C2 statement at a concrete state and event. -/
theorem sessionDeleted_cascade_iff_current_witness :
    currentId ⟨some ⟨"s1", ""⟩, [⟨⟨"m1", "s1", ""⟩, []⟩], [], none⟩ = some "s1" ∧
    (webIngest ⟨some ⟨"s1", ""⟩, [⟨⟨"m1", "s1", ""⟩, []⟩], [], none⟩
        (Event.sessionDeleted ⟨"s1", ""⟩)).messages = [] :=
  ⟨by decide,
    ((sessionDeleted_cascade_iff_current
        ⟨some ⟨"s1", ""⟩, [⟨⟨"m1", "s1", ""⟩, []⟩], [], none⟩
        ⟨"s1", ""⟩).2.2.1 (by decide)).2⟩

/-- C10: on the preview channel, `run` still updates package versions and
builds the release artifact but performs no previous-version lookup, no
release-notes collection, no commit, no tag, no push and no GitHub release;
independently, `commitAndTag` returns false exactly on a clean worktree
(empty trimmed `git status --porcelain` output), and `pushChanges` with a
false commit flag pushes nothing. -/
theorem publish_preview_skips_release (version gitStatus branch : String) :
    run true version gitStatus branch =
      [PubAction.updateVersions version, PubAction.installDeps, PubAction.buildArtifact] ∧
    PubAction.resolvePrevious ∉ run true version gitStatus branch ∧
    PubAction.collectNotes ∉ run true version gitStatus branch ∧
    (∀ m, PubAction.gitCommit m ∉ run true version gitStatus branch) ∧
    (∀ t, PubAction.gitTag t ∉ run true version gitStatus branch) ∧
    (∀ b, PubAction.gitPush b ∉ run true version gitStatus branch) ∧
    (∀ t, PubAction.ghRelease t ∉ run true version gitStatus branch) ∧
    ((commitAndTag version gitStatus).1 = false ↔ gitStatus.trim = "") ∧
    (∀ b, pushChanges false b = []) := by
  refine ⟨rfl, ?_, ?_, ?_, ?_, ?_, ?_, ?_, fun b => rfl⟩
  · simp [run]
  · simp [run]
  · intro m; simp [run]
  · intro t; simp [run]
  · intro b; simp [run]
  · intro t; simp [run]
  · unfold commitAndTag
    split
    · simpa
    · simpa
